import Mathlib

/-!
Verification of the line-range remapping core of this repository.

The repository ships the test suite for the module `monochromatic.ranges`
(functions `sanitized_lines` and `adjusted_lines`) but not the module
itself, so those two operations, together with the document line splitter
and the diff-opcode contract they rely on, are modelled here from the
specification.  The width-table generator (`scripts/make_width_table.py`)
and the gallery helper `get_first_archive_member` are translated from the
sources directly.
-/

namespace Monochromatic

/-! ## Documents -/

/-- Modelled from the spec: the document line splitter of the missing
`monochromatic.ranges` module.  Splits a raw text on the line terminator,
keeping empty segments, so that the text `a\nb` yields the segments
`a` and `b` and a terminator opens a new (possibly empty) segment. -/
def splitNL : List Char → List (List Char)
  | [] => [[]]
  | c :: rest =>
    if c = '\n' then [] :: splitNL rest
    else
      match splitNL rest with
      | [] => [[c]]
      | l :: ls => (c :: l) :: ls

/-- Modelled from the spec: a Document of the missing `monochromatic.ranges`
module is the ordered sequence of lines of a text; a single trailing line
break does not create a phantom empty trailing line. -/
def docLines (text : List Char) : List (List Char) :=
  if text.getLast? = some '\n' then (splitNL text).dropLast else splitNL text

/-- Modelled from the spec: `total_lines(document)` of the missing
`monochromatic.ranges` module. -/
def totalLines (text : List Char) : Nat :=
  (docLines text).length

/-! ## Permissive sanitization (RangeSanitizer) -/

/-- Modelled from the spec: the per-range rule of `sanitized_lines` in the
missing `monochromatic.ranges` module (spec section 4.1, steps 1-6):
backwards ranges are discarded before clamping, the start is clamped up
to 1, a start past the end of the document discards the range, the end is
clamped down to the line count, and a range empty after clamping is
discarded. -/
def sanitizeRange (n : Nat) (r : Int × Int) : Option (Int × Int) :=
  if r.2 < r.1 then none
  else
    let s := if r.1 < 1 then 1 else r.1
    if (n : Int) < s then none
    else
      let e := if (n : Int) < r.2 then (n : Int) else r.2
      if e < s then none
      else some (s, e)

/-- Modelled from the spec: `sanitized_lines` of the missing
`monochromatic.ranges` module, permissive and per-range. -/
def sanitized_lines (ranges : List (Int × Int)) (src : List Char) : List (Int × Int) :=
  ranges.filterMap (sanitizeRange (totalLines src))

/-! ## Basic facts about the splitter -/

theorem splitNL_ne_nil (text : List Char) : splitNL text ≠ [] := by
  induction text with
  | nil => simp [splitNL]
  | cons c rest ih =>
    by_cases h : c = '\n'
    · simp [splitNL, h]
    · simp only [splitNL, if_neg h]
      cases hs : splitNL rest with
      | nil => simp
      | cons l ls => simp

theorem splitNL_append_newline (text : List Char) :
    (splitNL (text ++ ['\n'])).length = (splitNL text).length + 1 := by
  induction text with
  | nil => simp [splitNL]
  | cons c rest ih =>
    by_cases h : c = '\n'
    · simp [splitNL, h, ih]
    · simp only [List.cons_append, splitNL, if_neg h]
      cases hs : splitNL (rest ++ ['\n']) with
      | nil => exact absurd hs (splitNL_ne_nil _)
      | cons l ls =>
        cases ht : splitNL rest with
        | nil => exact absurd ht (splitNL_ne_nil _)
        | cons l' ls' =>
          have := ih
          rw [hs, ht] at this
          simpa using this

theorem totalLines_append_newline (text : List Char)
    (h : text.getLast? ≠ some '\n') :
    totalLines (text ++ ['\n']) = totalLines text := by
  have hlast : (text ++ ['\n']).getLast? = some '\n' := by
    simp [List.getLast?_concat]
  unfold totalLines docLines
  rw [if_pos hlast, if_neg h, List.length_dropLast, splitNL_append_newline]
  omega

/-! ## Diff opcodes and the adjuster (RangeAdjuster) -/

/-- Modelled from the spec: the tag of a diff opcode produced by the
external diff collaborator of the missing `monochromatic.ranges` module. -/
inductive OpKind where
  | equal
  | insert
  | delete
  | replace
deriving DecidableEq

/-- Modelled from the spec: a DiffOpcode record of the missing
`monochromatic.ranges` module, carrying half-open 0-indexed spans into
the original and the modified line sequences. -/
structure DiffOpcode where
  kind : OpKind
  origStart : Nat
  origEnd : Nat
  modStart : Nat
  modEnd : Nat
deriving DecidableEq

/-- Modelled from the spec: the anchors contributed by one opcode to the
anchor table (spec section 4.2, step 3).  An EQUAL opcode maps each of
its original lines to the 1-indexed corresponding modified line; any
other opcode maps every original line of its block to the single
insertion point `mod_start + 1`. -/
def opAnchors (op : DiffOpcode) : List Nat :=
  match op.kind with
  | OpKind.equal =>
      (List.range (op.origEnd - op.origStart)).map (fun k => op.modStart + k + 1)
  | _ => List.replicate (op.origEnd - op.origStart) (op.modStart + 1)

/-- Modelled from the spec: the anchor table of the missing
`monochromatic.ranges` module, indexed by 0-based original line number. -/
def anchorTable (ops : List DiffOpcode) : List Nat :=
  (ops.map opAnchors).flatten

/-- The minimum of a nonempty anchor slice, computed by a left fold as in
spec section 4.2, step 4. -/
def sliceMin : List Nat → Option Nat
  | [] => none
  | a :: rest => some (rest.foldl Nat.min a)

/-- The maximum of a nonempty anchor slice, computed by a left fold as in
spec section 4.2, step 4. -/
def sliceMax : List Nat → Option Nat
  | [] => none
  | a :: rest => some (rest.foldl Nat.max a)

/-- The anchors of the original lines `s..e` (1-indexed, inclusive). -/
def rangeAnchors (table : List Nat) (s e : Nat) : List Nat :=
  (table.drop (s - 1)).take (e - s + 1)

/-- Modelled from the spec: per-range mapping and bounds resolution of the
missing `monochromatic.ranges` module (spec section 4.2, steps 4 and 5):
take the minimum and maximum anchor over the range, discard the range when
the minimum lies beyond the modified document, clamp the maximum to the
modified line count otherwise. -/
def mapRange (table : List Nat) (T : Nat) (r : Int × Int) : Option (Int × Int) :=
  match sliceMin (rangeAnchors table r.1.toNat r.2.toNat),
      sliceMax (rangeAnchors table r.1.toNat r.2.toNat) with
  | some low, some high =>
      if T < low then none
      else some ((low : Int), ((Nat.min high T : Nat) : Int))
  | _, _ => none

/-- Modelled from the spec: strict validation of one range against the
original document (spec section 4.2, step 1), with no clamping. -/
def isValidRange (n : Nat) (r : Int × Int) : Bool :=
  decide (1 ≤ r.1) && decide (r.1 ≤ r.2) && decide (r.2 ≤ (n : Int))

/-- Modelled from the spec: the output order of the missing
`monochromatic.ranges` module, ascending by start line with ties broken by
end line ascending. -/
def rangeLE (a b : Int × Int) : Prop :=
  a.1 < b.1 ∨ (a.1 = b.1 ∧ a.2 ≤ b.2)

instance : DecidableRel rangeLE := by
  intro a b
  unfold rangeLE
  infer_instance

instance : IsTotal (Int × Int) rangeLE := by
  constructor
  intro a b
  unfold rangeLE
  omega

instance : IsTrans (Int × Int) rangeLE := by
  constructor
  intro a b c hab hbc
  unfold rangeLE at hab hbc ⊢
  omega

instance : IsAntisymm (Int × Int) rangeLE := by
  constructor
  intro a b hab hba
  unfold rangeLE at hab hba
  cases a
  cases b
  simp only [Prod.mk.injEq]
  simp only at hab hba
  omega

/-- Modelled from the spec: `adjusted_lines` of the missing
`monochromatic.ranges` module (spec section 4.2).  The opcode stream
supplied by the external diff collaborator for the pair of documents is
passed as the `ops` argument.  Strict validation is atomic: any invalid
range empties the whole result; otherwise each range is mapped through
the anchor table, clamped or dropped against the modified document, and
the surviving ranges are sorted. -/
def adjusted_lines (ranges : List (Int × Int)) (original modified : List Char)
    (ops : List DiffOpcode) : List (Int × Int) :=
  if ranges.all (isValidRange (totalLines original)) then
    List.insertionSort rangeLE
      (ranges.filterMap (mapRange (anchorTable ops) (totalLines modified)))
  else []

/-- Modelled from the spec: the contiguity and monotonicity contract of
the diff collaborator (spec section 3), checked as a chain: starting from
the pair of cursors `(o, mc)`, each opcode begins exactly where the
previous one ended on both sides, spans are non-decreasing, EQUAL opcodes
have equal-length spans, and the stream ends exactly at the two document
lengths. -/
def chainFrom (n m : Nat) : Nat → Nat → List DiffOpcode → Bool
  | o, mc, [] => o == n && mc == m
  | o, mc, op :: rest =>
      op.origStart == o && op.modStart == mc &&
      decide (op.origStart ≤ op.origEnd) && decide (op.modStart ≤ op.modEnd) &&
      (op.kind != OpKind.equal ||
        (op.origEnd - op.origStart == op.modEnd - op.modStart)) &&
      chainFrom n m op.origEnd op.modEnd rest

/-- Modelled from the spec: the full DiffOpcode stream invariant for a
pair of documents with `n` original and `m` modified lines. -/
def validStream (ops : List DiffOpcode) (n m : Nat) : Bool :=
  chainFrom n m 0 0 ops

/-- Modelled from the spec: EQUAL opcodes have pairwise-matching content
between the two line sequences (spec section 3). -/
def equalBlocksOk (ops : List DiffOpcode) (orig modLs : List (List Char)) : Bool :=
  ops.all fun op =>
    op.kind != OpKind.equal ||
      decide ((orig.drop op.origStart).take (op.origEnd - op.origStart) =
        (modLs.drop op.modStart).take (op.modEnd - op.modStart))

/-- An error surfaced to the caller when the diff collaborator breaks its
contract. -/
inductive AdjustError where
  | contractViolation
deriving DecidableEq

/-- Modelled from the spec: the failure semantics of the missing
`monochromatic.ranges` module (spec sections 4.2 and 7): a malformed
opcode stream is a fatal contract violation surfaced as a hard error to
the caller, never silently absorbed, while all other outcomes are the
ordinary adjusted ranges. -/
def adjustedLinesChecked (ranges : List (Int × Int)) (original modified : List Char)
    (ops : List DiffOpcode) : Except AdjustError (List (Int × Int)) :=
  if validStream ops (totalLines original) (totalLines modified) then
    Except.ok (adjusted_lines ranges original modified ops)
  else
    Except.error AdjustError.contractViolation

/-! ## Concrete documents and opcode streams used by the test-derived
properties.  Line contents are abbreviated to one character per line; the
claims only constrain line counts and which lines survive. -/

/-- A 4-line document with a trailing newline. -/
def doc4 : List Char := ['a', '\n', 'b', '\n', 'c', '\n', 'd', '\n']

/-- The same 4-line document without the trailing newline. -/
def doc4noNL : List Char := ['a', '\n', 'b', '\n', 'c', '\n', 'd']

/-- A 6-line original document. -/
def doc6 : List Char := ['a', '\n', 'b', '\n', 'c', '\n', 'd', '\n', 'e', '\n', 'f', '\n']

/-- The modified document keeping only lines 2 and 5 of `doc6`, in order. -/
def doc6kept : List Char := ['b', '\n', 'e', '\n']

/-- The diff opcode stream between `doc6` and `doc6kept`: every line is
distinct, so any maximal-equal-runs line diff yields exactly these
opcodes. -/
def opsDel : List DiffOpcode :=
  [⟨OpKind.delete, 0, 1, 0, 0⟩, ⟨OpKind.equal, 1, 2, 0, 1⟩,
   ⟨OpKind.delete, 2, 4, 1, 1⟩, ⟨OpKind.equal, 4, 5, 1, 2⟩,
   ⟨OpKind.delete, 5, 6, 2, 2⟩]

/-- A 12-line original document. -/
def doc12 : List Char :=
  ['a', '\n', 'b', '\n', 'c', '\n', 'd', '\n', 'e', '\n', 'f', '\n',
   'g', '\n', 'h', '\n', 'i', '\n', 'j', '\n', 'k', '\n', 'l', '\n']

/-- The 11-line modified document: line 1 rewritten, lines 9-10 merged
into one new line, line 12 rewritten. -/
def doc11 : List Char :=
  ['x', '\n', 'b', '\n', 'c', '\n', 'd', '\n', 'e', '\n', 'f', '\n',
   'g', '\n', 'h', '\n', 'y', '\n', 'k', '\n', 'z', '\n']

/-- The diff opcode stream between `doc12` and `doc11`. -/
def opsDiff : List DiffOpcode :=
  [⟨OpKind.replace, 0, 1, 0, 1⟩, ⟨OpKind.equal, 1, 8, 1, 8⟩,
   ⟨OpKind.replace, 8, 10, 8, 9⟩, ⟨OpKind.equal, 10, 11, 9, 10⟩,
   ⟨OpKind.replace, 11, 12, 10, 11⟩]

/-! ## Sorted-list and anchor-table machinery -/

theorem foldl_min_of_le : ∀ (l : List Nat) (a : Nat), (∀ x ∈ l, a ≤ x) →
    l.foldl Nat.min a = a
  | [], _, _ => rfl
  | x :: t, a, h => by
    simp only [List.foldl_cons]
    have hax : Nat.min a x = a := by
      have hle := h x (List.mem_cons_self x t)
      exact min_eq_left hle
    rw [hax]
    exact foldl_min_of_le t a (fun y hy => h y (List.mem_cons_of_mem x hy))

theorem foldl_max_sorted : ∀ (l : List Nat) (a : Nat),
    List.Sorted (fun x y => x ≤ y) (a :: l) →
    l.foldl Nat.max a = (a :: l).getLast (List.cons_ne_nil a l)
  | [], _, _ => rfl
  | x :: t, a, h => by
    simp only [List.foldl_cons]
    have hax : Nat.max a x = x := by
      have hle := (List.sorted_cons.mp h).1 x (List.mem_cons_self x t)
      exact max_eq_right hle
    rw [hax, List.getLast_cons (List.cons_ne_nil x t)]
    exact foldl_max_sorted t x (List.sorted_cons.mp h).2

theorem opAnchors_sorted (op : DiffOpcode) :
    List.Sorted (fun x y => x ≤ y) (opAnchors op) := by
  cases hk : op.kind with
  | equal =>
    simp only [opAnchors, hk]
    exact (List.pairwise_lt_range _).map _ (fun a b hab => by omega)
  | insert =>
    simp only [opAnchors, hk]
    exact List.pairwise_replicate.mpr (Or.inr (le_refl _))
  | delete =>
    simp only [opAnchors, hk]
    exact List.pairwise_replicate.mpr (Or.inr (le_refl _))
  | replace =>
    simp only [opAnchors, hk]
    exact List.pairwise_replicate.mpr (Or.inr (le_refl _))

theorem opAnchors_mem_lower (op : DiffOpcode) (x : Nat) (hx : x ∈ opAnchors op) :
    op.modStart < x := by
  cases hk : op.kind <;> rw [opAnchors, hk] at hx <;>
    simp only [List.mem_map, List.mem_range, List.mem_replicate] at hx <;> omega

theorem opAnchors_mem_upper (op : DiffOpcode)
    (heq : op.kind = OpKind.equal → op.origEnd - op.origStart = op.modEnd - op.modStart)
    (hm : op.modStart ≤ op.modEnd) (x : Nat) (hx : x ∈ opAnchors op) :
    x ≤ op.modEnd + 1 := by
  cases hk : op.kind <;> rw [opAnchors, hk] at hx <;>
    simp only [List.mem_map, List.mem_range, List.mem_replicate] at hx
  · have hspan := heq hk
    omega
  all_goals omega

theorem opAnchors_length (op : DiffOpcode) :
    (opAnchors op).length = op.origEnd - op.origStart := by
  cases hk : op.kind <;> simp [opAnchors, hk]

theorem chainFrom_anchors : ∀ (ops : List DiffOpcode) (n m o mc : Nat),
    chainFrom n m o mc ops = true →
    List.Sorted (fun x y => x ≤ y) (anchorTable ops) ∧
    (∀ x ∈ anchorTable ops, mc < x) ∧
    o ≤ n ∧ (anchorTable ops).length = n - o
  | [], n, m, o, mc, h => by
    simp only [chainFrom, Bool.and_eq_true, beq_iff_eq] at h
    refine ⟨List.sorted_nil, by simp [anchorTable], ?_, ?_⟩ <;>
      simp [anchorTable, h.1]
  | op :: rest, n, m, o, mc, h => by
    simp only [chainFrom, Bool.and_eq_true, beq_iff_eq, decide_eq_true_eq,
      Bool.or_eq_true, bne_iff_ne, ne_eq] at h
    obtain ⟨⟨⟨⟨⟨h1, h2⟩, h3⟩, h4⟩, h5⟩, h6⟩ := h
    have heq : op.kind = OpKind.equal →
        op.origEnd - op.origStart = op.modEnd - op.modStart :=
      fun hk => h5.elim (fun hne => absurd hk hne) id
    have ih := chainFrom_anchors rest n m op.origEnd op.modEnd h6
    have htable : anchorTable (op :: rest) = opAnchors op ++ anchorTable rest := by
      simp [anchorTable]
    rw [htable]
    refine ⟨?_, ?_, ?_, ?_⟩
    · refine List.pairwise_append.mpr ⟨opAnchors_sorted op, ih.1, ?_⟩
      intro a ha b hb
      have hub := opAnchors_mem_upper op heq h4 a ha
      have hlb := ih.2.1 b hb
      omega
    · intro x hx
      rcases List.mem_append.mp hx with hxa | hxb
      · have := opAnchors_mem_lower op x hxa
        omega
      · have := ih.2.1 x hxb
        omega
    · have := ih.2.2.1
      omega
    · rw [List.length_append, opAnchors_length, ih.2.2.2]
      have := ih.2.2.1
      omega

theorem slice_min_max_of_sorted (table : List Nat)
    (hs : List.Sorted (fun x y => x ≤ y) table) (s e : Nat)
    (h1 : 1 ≤ s) (h2 : s ≤ e) (h3 : e ≤ table.length) :
    sliceMin (rangeAnchors table s e) = some (table.getD (s - 1) 0) ∧
    sliceMax (rangeAnchors table s e) = some (table.getD (e - 1) 0) := by
  have hlen : (rangeAnchors table s e).length = e - s + 1 := by
    simp only [rangeAnchors, List.length_take, List.length_drop]
    omega
  have hslice : List.Sorted (fun x y => x ≤ y) (rangeAnchors table s e) :=
    List.Pairwise.sublist ((List.take_sublist _ _).trans (List.drop_sublist _ _)) hs
  have hget : ∀ i, i < e - s + 1 → table[s - 1 + i]? = (rangeAnchors table s e)[i]? := by
    intro i hi
    simp only [rangeAnchors, List.getElem?_take, if_pos hi, List.getElem?_drop]
  cases hc : rangeAnchors table s e with
  | nil =>
    rw [hc] at hlen
    simp at hlen
  | cons a rest =>
    rw [hc] at hslice hget hlen
    have ha : table[s - 1]? = some a := by
      have h0 := hget 0 (by omega)
      simpa using h0
    have hgds : table.getD (s - 1) 0 = a := by
      rw [List.getD_eq_getElem?_getD, ha]
      rfl
    have hlenr : (a :: rest).length = e - s + 1 := hlen
    have hlast : table[e - 1]? =
        some ((a :: rest).getLast (List.cons_ne_nil a rest)) := by
      have hg := hget (e - s) (by omega)
      have hidx : s - 1 + (e - s) = e - 1 := by omega
      rw [hidx] at hg
      have h5 := List.getLast?_eq_getElem? (a :: rest)
      rw [List.getLast?_eq_getLast_of_ne_nil (List.cons_ne_nil a rest)] at h5
      rw [hlenr] at h5
      simp only [Nat.add_sub_cancel] at h5
      rw [hg, ← h5]
    have hgde : table.getD (e - 1) 0 = (a :: rest).getLast (List.cons_ne_nil a rest) := by
      rw [List.getD_eq_getElem?_getD, hlast]
      rfl
    constructor
    · simp only [sliceMin, hgds]
      rw [foldl_min_of_le rest a (List.sorted_cons.mp hslice).1]
    · simp only [sliceMax, hgde]
      rw [foldl_max_sorted rest a hslice]

/-- The anchor of the 1-indexed original line `i` in the table built from
an opcode stream (spec section 4.2, step 3). -/
def anchor (ops : List DiffOpcode) (i : Nat) : Nat :=
  (anchorTable ops).getD (i - 1) 0

/-! ## Claim theorems: validation and sanitization -/

/-- C1: for every input list of line ranges and every pair of documents,
if at least one range fails strict validation against the original
document, then adjust returns the empty sequence, regardless of how many
other ranges in the list are individually valid. -/
theorem adjusted_lines_atomic_rejection (ranges : List (Int × Int))
    (original modified : List Char) (ops : List DiffOpcode) (r : Int × Int)
    (hr : r ∈ ranges) (hbad : isValidRange (totalLines original) r = false) :
    adjusted_lines ranges original modified ops = [] := by
  unfold adjusted_lines
  rw [if_neg]
  intro hall
  rw [List.all_eq_true] at hall
  have hcontra := hall r hr
  rw [hbad] at hcontra
  exact Bool.false_ne_true hcontra

/-- Witness for C1: the batch `[(0,8),(3,1)]` against a 4-line original
document is rejected as a whole because `(3,1)` is strictly invalid. -/
theorem adjusted_lines_atomic_rejection_witness :
    ((3, 1) : Int × Int) ∈ [((0 : Int), (8 : Int)), (3, 1)] ∧
    isValidRange (totalLines doc4) (3, 1) = false ∧
    adjusted_lines [((0 : Int), (8 : Int)), (3, 1)] doc4 doc4 [] = [] :=
  ⟨by decide, by decide,
    adjusted_lines_atomic_rejection [((0 : Int), (8 : Int)), (3, 1)] doc4 doc4 []
      (3, 1) (by decide) (by decide)⟩

/-- C2: sanitize processes every range independently; a backwards range is
discarded, the start is clamped up to 1, a start past the document is
discarded, the end is clamped down to the line count, a range empty after
clamping is discarded, an already-valid range is kept unchanged; and the
four spec examples hold on a 4-line document. -/
theorem sanitized_lines_spec :
    (∀ (n : Nat) (s e : Int), 1 ≤ s → s ≤ e → e ≤ (n : Int) →
        sanitizeRange n (s, e) = some (s, e)) ∧
    (∀ (n : Nat) (s e : Int), e < s → sanitizeRange n (s, e) = none) ∧
    (∀ (n : Nat) (s e : Int), s ≤ e → (n : Int) < s → sanitizeRange n (s, e) = none) ∧
    (∀ (n : Nat) (s e : Int), s < 1 → 1 ≤ e → e ≤ (n : Int) →
        sanitizeRange n (s, e) = some (1, e)) ∧
    (∀ (n : Nat) (s e : Int), 1 ≤ s → s ≤ (n : Int) → (n : Int) < e →
        sanitizeRange n (s, e) = some (s, (n : Int))) ∧
    (∀ (n : Nat) (s e : Int), e < 1 → sanitizeRange n (s, e) = none) ∧
    (∀ (r : Int × Int) (rs : List (Int × Int)) (src : List Char),
        sanitized_lines (r :: rs) src =
          (sanitizeRange (totalLines src) r).toList ++ sanitized_lines rs src) ∧
    sanitized_lines [(0, 3)] doc4 = [(1, 3)] ∧
    sanitized_lines [(2, 10)] doc4 = [(2, 4)] ∧
    sanitized_lines [(0, 0)] doc4 = [] ∧
    sanitized_lines [(3, 1), (1, 3), (5, 6)] doc4 = [(1, 3)] := by
  refine ⟨?_, ?_, ?_, ?_, ?_, ?_, ?_, by decide, by decide, by decide, by decide⟩
  · intro n s e h1 h2 h3
    simp only [sanitizeRange]
    split_ifs <;> first | rfl | omega
  · intro n s e h1
    simp only [sanitizeRange]
    rw [if_pos h1]
  · intro n s e h1 h2
    simp only [sanitizeRange]
    split_ifs <;> first | rfl | omega
  · intro n s e h1 h2 h3
    simp only [sanitizeRange]
    split_ifs <;> first | rfl | omega
  · intro n s e h1 h2 h3
    simp only [sanitizeRange]
    split_ifs <;> first | rfl | omega
  · intro n s e h1
    simp only [sanitizeRange]
    split_ifs <;> first | rfl | omega
  · intro r rs src
    simp only [sanitized_lines, List.filterMap_cons]
    cases sanitizeRange (totalLines src) r <;> simp

/-- Witness for C2: the already-valid range `(2,3)` on a 4-line document
is kept unchanged. -/
theorem sanitized_lines_spec_witness :
    sanitizeRange 4 (2, 3) = some (2, 3) :=
  sanitized_lines_spec.1 4 2 3 (by decide) (by decide) (by decide)

/-- C3: with a 6-line original and a modified document keeping only
original lines 2 and 5 in order, under the (contract-satisfying,
content-matching) diff opcode stream: `adjust([(1,1)]) = [(1,1)]`,
`adjust([(6,6)]) = []` because the mapped low anchor lies beyond the
modified document, and `adjust([(1,6)]) = [(1,2)]` with the high end
clamped to the modified line count. -/
theorem adjusted_lines_pure_deletion :
    validStream opsDel (totalLines doc6) (totalLines doc6kept) = true ∧
    equalBlocksOk opsDel (docLines doc6) (docLines doc6kept) = true ∧
    adjusted_lines [(1, 1)] doc6 doc6kept opsDel = [(1, 1)] ∧
    adjusted_lines [(6, 6)] doc6 doc6kept opsDel = [] ∧
    adjusted_lines [(1, 6)] doc6 doc6kept opsDel = [(1, 2)] := by
  decide

/-- C7: a single trailing line terminator does not produce an extra empty
final line: the line count, and hence the result of sanitize for every
input range list, is the same with and without it. -/
theorem sanitized_lines_trailing_newline (ranges : List (Int × Int))
    (text : List Char) (h : text.getLast? ≠ some '\n') :
    totalLines (text ++ ['\n']) = totalLines text ∧
    sanitized_lines ranges (text ++ ['\n']) = sanitized_lines ranges text := by
  have hcount := totalLines_append_newline text h
  exact ⟨hcount, by unfold sanitized_lines; rw [hcount]⟩

/-- Witness for C7: the 4-line document with and without its trailing
newline has 4 lines either way and sanitizes `[(2,10)]` identically. -/
theorem sanitized_lines_trailing_newline_witness :
    totalLines doc4 = 4 ∧ totalLines doc4noNL = 4 ∧
    sanitized_lines [((2 : Int), 10)] doc4 = sanitized_lines [((2 : Int), 10)] doc4noNL := by
  have h := sanitized_lines_trailing_newline [((2 : Int), 10)] doc4noNL (by decide)
  rw [show doc4noNL ++ ['\n'] = doc4 from rfl] at h
  exact ⟨by decide, by decide, h.2⟩

/-- C8: when the opcode stream supplied by the diff collaborator violates
the contiguity/monotonicity invariants, the adjuster surfaces a hard
error to the caller and never returns a (partial or empty) result. -/
theorem adjusted_lines_checked_surfaces_error (ranges : List (Int × Int))
    (original modified : List Char) (ops : List DiffOpcode)
    (h : validStream ops (totalLines original) (totalLines modified) = false) :
    adjustedLinesChecked ranges original modified ops =
      Except.error AdjustError.contractViolation ∧
    ∀ result, adjustedLinesChecked ranges original modified ops ≠ Except.ok result := by
  unfold adjustedLinesChecked
  rw [h]
  exact ⟨rfl, fun result hcontra => by simp at hcontra⟩

/-- Witness for C8: an opcode stream stopping short of the end of a 4-line
document is rejected with a hard error. -/
theorem adjusted_lines_checked_surfaces_error_witness :
    adjustedLinesChecked [((1 : Int), 1)] doc4 doc4 [⟨OpKind.equal, 0, 1, 0, 1⟩] =
      Except.error AdjustError.contractViolation :=
  (adjusted_lines_checked_surfaces_error [((1 : Int), 1)] doc4 doc4
    [⟨OpKind.equal, 0, 1, 0, 1⟩] (by decide)).1

/-! ## Claim theorems: anchor monotonicity, identity, order normalization -/

/-- C6: for every opcode stream satisfying the DiffOpcode invariants, the
anchor table is monotonic non-decreasing in the original line number, and
consequently for every validated range `(s, e)` the minimum anchor over
`s..e` is `anchor(s)` and the maximum is `anchor(e)`. -/
theorem anchor_table_monotone (ops : List DiffOpcode) (n m : Nat)
    (h : validStream ops n m = true) :
    List.Sorted (fun x y => x ≤ y) (anchorTable ops) ∧
    ∀ s e : Nat, 1 ≤ s → s ≤ e → e ≤ n →
      sliceMin (rangeAnchors (anchorTable ops) s e) = some (anchor ops s) ∧
      sliceMax (rangeAnchors (anchorTable ops) s e) = some (anchor ops e) := by
  have hmain := chainFrom_anchors ops n m 0 0 h
  refine ⟨hmain.1, fun s e h1 h2 h3 => ?_⟩
  have hlen : (anchorTable ops).length = n := by
    rw [hmain.2.2.2]
    omega
  exact slice_min_max_of_sorted _ hmain.1 s e h1 h2 (by omega)

/-- Witness for C6: the deletion-collapse opcode stream yields a monotone
anchor table whose slice extrema over `1..6` are the endpoint anchors. -/
theorem anchor_table_monotone_witness :
    List.Sorted (fun x y => x ≤ y) (anchorTable opsDel) ∧
    sliceMin (rangeAnchors (anchorTable opsDel) 1 6) = some (anchor opsDel 1) ∧
    sliceMax (rangeAnchors (anchorTable opsDel) 1 6) = some (anchor opsDel 6) := by
  have h := anchor_table_monotone opsDel 6 2 (by decide)
  have h16 := h.2 1 6 (by decide) (by decide) (by decide)
  exact ⟨h.1, h16.1, h16.2⟩

/-- The single all-EQUAL opcode stream of an unchanged `n`-line document
satisfies the diff collaborator contract. -/
theorem allEqual_validStream (n : Nat) :
    validStream [⟨OpKind.equal, 0, n, 0, n⟩] n n = true := by
  simp [validStream, chainFrom]

theorem identity_table_getD (n i : Nat) (h1 : 1 ≤ i) (h2 : i ≤ n) :
    (anchorTable [⟨OpKind.equal, 0, n, 0, n⟩]).getD (i - 1) 0 = i := by
  have htab : anchorTable [⟨OpKind.equal, 0, n, 0, n⟩] =
      (List.range n).map (fun k => k + 1) := by
    simp [anchorTable, opAnchors]
  rw [htab, List.getD_eq_getElem?_getD, List.getElem?_map,
    List.getElem?_range (by omega)]
  show i - 1 + 1 = i
  omega

theorem mapRange_identity (n : Nat) (r : Int × Int)
    (h : isValidRange n r = true) :
    mapRange (anchorTable [⟨OpKind.equal, 0, n, 0, n⟩]) n r = some r := by
  obtain ⟨r1, r2⟩ := r
  simp only [isValidRange, Bool.and_eq_true, decide_eq_true_eq] at h
  obtain ⟨⟨hs1, hse⟩, hen⟩ := h
  have hchain :=
    chainFrom_anchors [⟨OpKind.equal, 0, n, 0, n⟩] n n 0 0 (allEqual_validStream n)
  have hlen : (anchorTable [⟨OpKind.equal, 0, n, 0, n⟩]).length = n := by
    rw [hchain.2.2.2]
    omega
  have hmm := slice_min_max_of_sorted _ hchain.1 r1.toNat r2.toNat
    (by omega) (by omega) (by omega)
  have hg1 := identity_table_getD n r1.toNat (by omega) (by omega)
  have hg2 := identity_table_getD n r2.toNat (by omega) (by omega)
  simp only [mapRange, hmm.1, hmm.2, hg1, hg2]
  rw [if_neg (by omega)]
  have hm : Nat.min r2.toNat n = r2.toNat := min_eq_left (by omega)
  rw [hm]
  have hc1 : ((r1.toNat : Nat) : Int) = r1 := by omega
  have hc2 : ((r2.toNat : Nat) : Int) = r2 := by omega
  rw [hc1, hc2]

theorem filterMap_eq_self {α : Type} (f : α → Option α) :
    ∀ (l : List α), (∀ x ∈ l, f x = some x) → l.filterMap f = l
  | [], _ => rfl
  | x :: t, h => by
    rw [List.filterMap_cons, h x (List.mem_cons_self x t),
      filterMap_eq_self f t (fun y hy => h y (List.mem_cons_of_mem x hy))]

/-- C4 counterexample: with equal documents and the all-EQUAL diff, a
strictly valid but unsorted input list is returned sorted, not unchanged,
so adjust does not return every input list unchanged. -/
theorem adjusted_lines_identity_counterexample :
    adjusted_lines [(2, 2), (1, 1)] doc4 doc4
      [⟨OpKind.equal, 0, totalLines doc4, 0, totalLines doc4⟩] ≠
      [(2, 2), (1, 1)] := by
  decide

/-- C4 (amended): if the original and modified documents are equal (the
diff being the all-EQUAL opcode stream) and every input range is strictly
valid and the input list is already sorted ascending by start with ties by
end, then adjust returns the input ranges unchanged. -/
theorem adjusted_lines_identity (ranges : List (Int × Int)) (original : List Char)
    (hvalid : ∀ r ∈ ranges, isValidRange (totalLines original) r = true)
    (hsorted : List.Sorted rangeLE ranges) :
    adjusted_lines ranges original original
      [⟨OpKind.equal, 0, totalLines original, 0, totalLines original⟩] = ranges := by
  unfold adjusted_lines
  rw [if_pos (List.all_eq_true.mpr hvalid)]
  rw [filterMap_eq_self _ ranges (fun r hr => mapRange_identity _ r (hvalid r hr))]
  exact hsorted.insertionSort_eq

/-- Witness for C4: a valid sorted batch on an unchanged 4-line document
comes back unchanged. -/
theorem adjusted_lines_identity_witness :
    adjusted_lines [(1, 1), (3, 4)] doc4 doc4
      [⟨OpKind.equal, 0, totalLines doc4, 0, totalLines doc4⟩] = [(1, 1), (3, 4)] :=
  adjusted_lines_identity [(1, 1), (3, 4)] doc4 (by decide) (by decide)

/-- C5: the output of adjust is sorted ascending by start line with ties
broken by end ascending, it is invariant under permutation of the input
range list, and on the 12-line example both input orders return
`[(1,1),(9,9)]`. -/
theorem adjusted_lines_order_normalization :
    (∀ (ranges : List (Int × Int)) (original modified : List Char)
        (ops : List DiffOpcode),
        List.Sorted rangeLE (adjusted_lines ranges original modified ops)) ∧
    (∀ (ranges1 ranges2 : List (Int × Int)) (original modified : List Char)
        (ops : List DiffOpcode), ranges1.Perm ranges2 →
        adjusted_lines ranges1 original modified ops =
          adjusted_lines ranges2 original modified ops) ∧
    validStream opsDiff (totalLines doc12) (totalLines doc11) = true ∧
    equalBlocksOk opsDiff (docLines doc12) (docLines doc11) = true ∧
    adjusted_lines [(9, 10), (1, 1)] doc12 doc11 opsDiff = [(1, 1), (9, 9)] ∧
    adjusted_lines [(1, 1), (9, 10)] doc12 doc11 opsDiff = [(1, 1), (9, 9)] := by
  refine ⟨?_, ?_, by decide, by decide, by decide, by decide⟩
  · intro ranges original modified ops
    unfold adjusted_lines
    split_ifs with h
    · exact List.sorted_insertionSort rangeLE _
    · exact List.sorted_nil
  · intro ranges1 ranges2 original modified ops hperm
    unfold adjusted_lines
    have hiff : ranges1.all (isValidRange (totalLines original)) = true ↔
        ranges2.all (isValidRange (totalLines original)) = true := by
      simp only [List.all_eq_true]
      exact ⟨fun h x hx => h x (hperm.mem_iff.mpr hx),
        fun h x hx => h x (hperm.mem_iff.mp hx)⟩
    split_ifs with h1 h2 h3
    · exact List.eq_of_perm_of_sorted
        ((List.perm_insertionSort _ _).trans
          ((hperm.filterMap _).trans (List.perm_insertionSort _ _).symm))
        (List.sorted_insertionSort _ _) (List.sorted_insertionSort _ _)
    · exact absurd (hiff.mp h1) h2
    · exact absurd (hiff.mpr h3) h1
    · rfl

/-- Witness for C5: the two concrete input orders of the 12-line example
are permutations of each other, so adjust maps them to the same output. -/
theorem adjusted_lines_order_normalization_witness :
    adjusted_lines [((9 : Int), (10 : Int)), (1, 1)] doc12 doc11 opsDiff =
      adjusted_lines [((1 : Int), (1 : Int)), (9, 10)] doc12 doc11 opsDiff :=
  adjusted_lines_order_normalization.2.1 _ _ doc12 doc11 opsDiff
    (List.Perm.swap _ _ _)

end Monochromatic

namespace WidthTable

/-! ## The width-table generator, from `scripts/make_width_table.py`.

The generator iterates over all codepoints `0..maxCp`, skipping those of
width at most 1, and groups the remaining codepoints into maximal runs of
consecutive codepoints sharing one width.  The `wcwidth.wcwidth` function
is external; it is passed in as the `width` argument. -/

/-- The loop state of `make_width_table`: the Python locals
`start_codepoint`, `end_codepoint` and `range_width` (integers, with the
sentinels `-1`, `-1`, `-2`), plus the triples yielded so far, in order. -/
structure MWTState where
  start_codepoint : Int
  end_codepoint : Int
  range_width : Int
  acc : List (Int × Int × Int)

/-- One iteration of the `for codepoint in range(0, sys.maxunicode + 1)`
loop body of `make_width_table`: narrow codepoints are skipped; the first
wide codepoint opens a range; a width change or a gap yields the open
range and opens a new one; otherwise the open range is extended.  The
`end_codepoint = codepoint` assignment runs in every non-skip branch. -/
def mwtStep (width : Nat → Int) (st : MWTState) (cp : Nat) : MWTState :=
  let w := width cp
  if w ≤ 1 then st
  else if st.start_codepoint < 0 then
    { st with
        start_codepoint := (cp : Int), range_width := w, end_codepoint := (cp : Int) }
  else if w ≠ st.range_width ∨ (cp : Int) ≠ st.end_codepoint + 1 then
    { start_codepoint := (cp : Int), end_codepoint := (cp : Int), range_width := w,
      acc := st.acc ++ [(st.start_codepoint, st.end_codepoint, st.range_width)] }
  else
    { st with end_codepoint := (cp : Int) }

/-- The triples yielded so far followed by the final
`if start_codepoint >= 0: yield (start_codepoint, end_codepoint,
range_width)` of `make_width_table`. -/
def closedTriples (st : MWTState) : List (Int × Int × Int) :=
  if 0 ≤ st.start_codepoint then
    st.acc ++ [(st.start_codepoint, st.end_codepoint, st.range_width)]
  else st.acc

/-- `make_width_table` from `scripts/make_width_table.py`, parametrized by
the per-codepoint width assignment and the maximum codepoint
(`sys.maxunicode`), returning the yielded triples in order. -/
def make_width_table (width : Nat → Int) (maxCp : Nat) : List (Int × Int × Int) :=
  closedTriples ((List.range (maxCp + 1)).foldl (mwtStep width) ⟨-1, -1, -2, []⟩)

/-- The invariant of the yielded-plus-open triples after the codepoints
`0..k-1` have been processed: every triple is a well-formed constant-width
run of wide codepoints ending before `k`, the runs are strictly increasing
and non-overlapping, and they cover exactly the wide codepoints below
`k`. -/
def GoodTriples (width : Nat → Int) (k : Nat) (ts : List (Int × Int × Int)) : Prop :=
  (∀ t ∈ ts, 0 ≤ t.1 ∧ t.1 ≤ t.2.1 ∧ 2 ≤ t.2.2 ∧ t.2.1 < (k : Int) ∧
    ∀ c : Nat, t.1 ≤ (c : Int) → (c : Int) ≤ t.2.1 → width c = t.2.2) ∧
  List.Pairwise (fun a b => a.2.1 < b.1) ts ∧
  (∀ c : Nat, c < k →
    (1 < width c ↔ ∃ t ∈ ts, t.1 ≤ (c : Int) ∧ (c : Int) ≤ t.2.1))

/-- The loop invariant: the closed triples are good, and before the first
wide codepoint nothing has been yielded. -/
def MWTInv (width : Nat → Int) (k : Nat) (st : MWTState) : Prop :=
  GoodTriples width k (closedTriples st) ∧ (st.start_codepoint < 0 → st.acc = [])

theorem goodTriples_skip (width : Nat → Int) (k : Nat)
    (ts : List (Int × Int × Int)) (h : GoodTriples width k ts)
    (hk : width k ≤ 1) : GoodTriples width (k + 1) ts := by
  obtain ⟨h1, h2, h3⟩ := h
  refine ⟨fun t ht => ?_, h2, fun c hc => ?_⟩
  · obtain ⟨a1, a2, a3, a4, a5⟩ := h1 t ht
    exact ⟨a1, a2, a3, by push_cast; omega, a5⟩
  · by_cases hck : c < k
    · exact h3 c hck
    · have hceq : c = k := by omega
      subst hceq
      constructor
      · intro hw
        exact absurd hw (by omega)
      · rintro ⟨t, ht, hle1, hle2⟩
        have hb := (h1 t ht).2.2.2.1
        exact absurd hle2 (by omega)

theorem goodTriples_append_fresh (width : Nat → Int) (k : Nat)
    (ts : List (Int × Int × Int)) (h : GoodTriples width k ts)
    (hw : 1 < width k) :
    GoodTriples width (k + 1) (ts ++ [((k : Int), (k : Int), width k)]) := by
  obtain ⟨h1, h2, h3⟩ := h
  refine ⟨?_, ?_, ?_⟩
  · intro t ht
    rcases List.mem_append.mp ht with hts | hnew
    · obtain ⟨a1, a2, a3, a4, a5⟩ := h1 t hts
      exact ⟨a1, a2, a3, by push_cast; omega, a5⟩
    · have ht' : t = ((k : Int), (k : Int), width k) := by simpa using hnew
      subst ht'
      refine ⟨show (0 : Int) ≤ (k : Int) from by omega, le_refl _,
        show (2 : Int) ≤ width k from by omega,
        show ((k : Int)) < ((k + 1 : Nat) : Int) from by push_cast; omega, ?_⟩
      intro c hc1 hc2
      have hck : c = k := by
        have hc1' : (k : Int) ≤ (c : Int) := hc1
        have hc2' : (c : Int) ≤ (k : Int) := hc2
        omega
      rw [hck]
  · refine List.pairwise_append.mpr ⟨h2, List.pairwise_singleton _ _, ?_⟩
    intro a ha b hb
    have hb' : b = ((k : Int), (k : Int), width k) := by simpa using hb
    subst hb'
    exact (h1 a ha).2.2.2.1
  · intro c hc
    by_cases hck : c < k
    · rw [h3 c hck]
      constructor
      · rintro ⟨t, ht, hb1, hb2⟩
        exact ⟨t, List.mem_append_left _ ht, hb1, hb2⟩
      · rintro ⟨t, ht, hb1, hb2⟩
        rcases List.mem_append.mp ht with hts | hnew
        · exact ⟨t, hts, hb1, hb2⟩
        · have ht' : t = ((k : Int), (k : Int), width k) := by simpa using hnew
          subst ht'
          have hb1' : (k : Int) ≤ (c : Int) := hb1
          exact absurd hb1' (by omega)
    · have hceq : c = k := by omega
      subst hceq
      constructor
      · intro _
        exact ⟨((c : Int), (c : Int), width c),
          List.mem_append_right _ (List.mem_singleton_self _), le_refl _, le_refl _⟩
      · intro _
        exact hw

theorem goodTriples_extend_last (width : Nat → Int) (k : Nat)
    (ts : List (Int × Int × Int)) (s0 e0 rw0 : Int)
    (h : GoodTriples width k (ts ++ [(s0, e0, rw0)]))
    (hw : 1 < width k) (hweq : width k = rw0) (hke : (k : Int) = e0 + 1) :
    GoodTriples width (k + 1) (ts ++ [(s0, (k : Int), rw0)]) := by
  obtain ⟨h1, h2, h3⟩ := h
  obtain ⟨hl1, hl2, hl3, hl4, hl5⟩ :=
    h1 (s0, e0, rw0) (List.mem_append_right _ (List.mem_singleton_self _))
  refine ⟨?_, ?_, ?_⟩
  · intro t ht
    rcases List.mem_append.mp ht with hts | hnew
    · obtain ⟨a1, a2, a3, a4, a5⟩ := h1 t (List.mem_append_left _ hts)
      exact ⟨a1, a2, a3, by push_cast; omega, a5⟩
    · have ht' : t = (s0, (k : Int), rw0) := by simpa using hnew
      subst ht'
      refine ⟨hl1, show s0 ≤ (k : Int) from by omega, hl3,
        show ((k : Int)) < ((k + 1 : Nat) : Int) from by push_cast; omega, ?_⟩
      intro c hc1 hc2
      by_cases hce : (c : Int) ≤ e0
      · exact hl5 c hc1 hce
      · have hck : c = k := by
          have hc2' : (c : Int) ≤ (k : Int) := hc2
          omega
        rw [hck, hweq]
  · rw [List.pairwise_append] at h2 ⊢
    obtain ⟨p1, p2, p3⟩ := h2
    refine ⟨p1, List.pairwise_singleton _ _, ?_⟩
    intro a ha b hb
    have hb' : b = (s0, (k : Int), rw0) := by simpa using hb
    subst hb'
    exact p3 a ha (s0, e0, rw0) (List.mem_singleton_self _)
  · intro c hc
    by_cases hck : c < k
    · rw [h3 c hck]
      constructor
      · rintro ⟨t, ht, hb1, hb2⟩
        rcases List.mem_append.mp ht with hts | hnew
        · exact ⟨t, List.mem_append_left _ hts, hb1, hb2⟩
        · have ht' : t = (s0, e0, rw0) := by simpa using hnew
          subst ht'
          have hb2' : (c : Int) ≤ e0 := hb2
          exact ⟨(s0, (k : Int), rw0),
            List.mem_append_right _ (List.mem_singleton_self _), hb1,
            show (c : Int) ≤ (k : Int) from by omega⟩
      · rintro ⟨t, ht, hb1, hb2⟩
        rcases List.mem_append.mp ht with hts | hnew
        · exact ⟨t, List.mem_append_left _ hts, hb1, hb2⟩
        · have ht' : t = (s0, (k : Int), rw0) := by simpa using hnew
          subst ht'
          have hb2' : (c : Int) ≤ (k : Int) := hb2
          exact ⟨(s0, e0, rw0),
            List.mem_append_right _ (List.mem_singleton_self _), hb1,
            show (c : Int) ≤ e0 from by omega⟩
    · have hceq : c = k := by omega
      subst hceq
      constructor
      · intro _
        exact ⟨(s0, (c : Int), rw0),
          List.mem_append_right _ (List.mem_singleton_self _),
          show s0 ≤ (c : Int) from by omega, le_refl _⟩
      · intro _
        exact hw

theorem mwtStep_inv (width : Nat → Int) (k : Nat) (st : MWTState)
    (h : MWTInv width k st) : MWTInv width (k + 1) (mwtStep width st k) := by
  obtain ⟨s0, e0, rw0, acc⟩ := st
  obtain ⟨hgood, hacc⟩ := h
  unfold mwtStep
  dsimp only
  split_ifs with hw hstart hnew
  · exact ⟨goodTriples_skip width k _ hgood hw, hacc⟩
  · have hacc' : acc = [] := hacc hstart
    have hclosed : closedTriples ⟨s0, e0, rw0, acc⟩ = [] := by
      unfold closedTriples
      dsimp only
      rw [if_neg (by omega), hacc']
    constructor
    · have hnewclosed : closedTriples ⟨(k : Int), (k : Int), width k, acc⟩ =
          [] ++ [((k : Int), (k : Int), width k)] := by
        unfold closedTriples
        dsimp only
        rw [if_pos (by omega), hacc']
      rw [hnewclosed]
      exact goodTriples_append_fresh width k [] (hclosed ▸ hgood) (by omega)
    · exact fun _ => hacc'
  · have hclosed : closedTriples ⟨s0, e0, rw0, acc⟩ = acc ++ [(s0, e0, rw0)] := by
      unfold closedTriples
      dsimp only
      rw [if_pos (by omega)]
    constructor
    · have hnewclosed :
          closedTriples ⟨(k : Int), (k : Int), width k, acc ++ [(s0, e0, rw0)]⟩ =
          (acc ++ [(s0, e0, rw0)]) ++ [((k : Int), (k : Int), width k)] := by
        unfold closedTriples
        dsimp only
        rw [if_pos (by omega)]
      rw [hnewclosed]
      exact goodTriples_append_fresh width k _ (hclosed ▸ hgood) (by omega)
    · intro hneg
      have hneg' : (k : Int) < 0 := hneg
      exact absurd hneg' (by omega)
  · push_neg at hnew
    obtain ⟨hweq, hke⟩ := hnew
    have hclosed : closedTriples ⟨s0, e0, rw0, acc⟩ = acc ++ [(s0, e0, rw0)] := by
      unfold closedTriples
      dsimp only
      rw [if_pos (by omega)]
    constructor
    · have hnewclosed : closedTriples ⟨s0, (k : Int), rw0, acc⟩ =
          acc ++ [(s0, (k : Int), rw0)] := by
        unfold closedTriples
        dsimp only
        rw [if_pos (by omega)]
      rw [hnewclosed]
      exact goodTriples_extend_last width k acc s0 e0 rw0 (hclosed ▸ hgood)
        (by omega) hweq hke
    · intro hneg
      exact absurd hneg hstart

theorem mwt_inv (width : Nat → Int) : ∀ (k : Nat),
    MWTInv width k ((List.range k).foldl (mwtStep width) ⟨-1, -1, -2, []⟩)
  | 0 => by
    constructor
    · have hcl : closedTriples ⟨-1, -1, -2, []⟩ = ([] : List (Int × Int × Int)) := rfl
      rw [List.range_zero, List.foldl_nil, hcl]
      exact ⟨fun t ht => absurd ht (List.not_mem_nil t), List.Pairwise.nil,
        fun c hc => absurd hc (by omega)⟩
    · exact fun _ => rfl
  | k + 1 => by
    rw [List.range_succ, List.foldl_append]
    simp only [List.foldl_cons, List.foldl_nil]
    exact mwtStep_inv width k _ (mwt_inv width k)

/-- C9: for every per-codepoint width assignment, every triple
`(start, end, w)` yielded by `make_width_table` satisfies `start ≤ end`
and `w ≥ 2`, every codepoint in `start..end` has width exactly `w`, the
triples are yielded in strictly increasing non-overlapping codepoint
order, and their union is exactly the set of codepoints of width greater
than 1. -/
theorem make_width_table_spec (width : Nat → Int) (maxCp : Nat) :
    (∀ t ∈ make_width_table width maxCp,
        t.1 ≤ t.2.1 ∧ 2 ≤ t.2.2 ∧
        ∀ c : Nat, t.1 ≤ (c : Int) → (c : Int) ≤ t.2.1 → width c = t.2.2) ∧
    List.Pairwise (fun a b => a.2.1 < b.1) (make_width_table width maxCp) ∧
    (∀ c : Nat, c ≤ maxCp →
        (1 < width c ↔ ∃ t ∈ make_width_table width maxCp,
          t.1 ≤ (c : Int) ∧ (c : Int) ≤ t.2.1)) := by
  obtain ⟨⟨h1, h2, h3⟩, _⟩ := mwt_inv width (maxCp + 1)
  unfold make_width_table
  refine ⟨fun t ht => ?_, h2, fun c hc => h3 c (by omega)⟩
  obtain ⟨a1, a2, a3, a4, a5⟩ := h1 t ht
  exact ⟨a2, a3, a5⟩

/-- A sample width assignment making codepoints 10..12 double-width. -/
def widthSample (c : Nat) : Int :=
  if 10 ≤ c ∧ c ≤ 12 then 2 else 1

/-- Witness for C9: under the sample width assignment, codepoint 11 is
wide and is covered by a yielded range. -/
theorem make_width_table_spec_witness :
    1 < widthSample 11 ↔ ∃ t ∈ make_width_table widthSample 20,
      t.1 ≤ ((11 : Nat) : Int) ∧ ((11 : Nat) : Int) ≤ t.2.1 :=
  (make_width_table_spec widthSample 20).2.2 11 (by decide)

end WidthTable

namespace Gallery

/-! ## The gallery helper `get_first_archive_member`, from
`gallery/gallery.py`.  Member names are left abstract. -/

/-- A dynamically-typed argument to `get_first_archive_member`: a
`tarfile.TarFile` (with its `getnames()` result), a `zipfile.ZipFile`
(with its `namelist()` result), or any other Python value. -/
inductive PyArchive (α : Type) where
  | tarFile (names : List α)
  | zipFile (names : List α)
  | otherValue

/-- The result of running a Python function body: a returned value, or an
uncaught `IndexError`. -/
inductive PyResult (α : Type) where
  | ok (value : α)
  | indexError
deriving DecidableEq

/-- Python list subscription `names[i]`: raises `IndexError` when `i` is
out of bounds. -/
def pyIndex {α : Type} (l : List α) (i : Nat) : PyResult α :=
  if h : i < l.length then PyResult.ok (l.get ⟨i, h⟩) else PyResult.indexError

/-- `get_first_archive_member` from `gallery/gallery.py`: returns
`archive.getnames()[0]` for a TarFile, `archive.namelist()[0]` for a
ZipFile, and falls off the end of the function (Python's implicit `None`)
for any other argument, despite the declared `str` return type. -/
def get_first_archive_member {α : Type} : PyArchive α → PyResult (Option α)
  | PyArchive.tarFile names =>
      match pyIndex names 0 with
      | PyResult.ok v => PyResult.ok (some v)
      | PyResult.indexError => PyResult.indexError
  | PyArchive.zipFile names =>
      match pyIndex names 0 with
      | PyResult.ok v => PyResult.ok (some v)
      | PyResult.indexError => PyResult.indexError
  | PyArchive.otherValue => PyResult.ok none

/-- C10: `get_first_archive_member` returns the first member name for
every TarFile or ZipFile with at least one member; the index access at
position 0 raises exactly when the member list is empty; and any argument
that is neither a TarFile nor a ZipFile falls through and returns `None`
despite the declared `str` return type. -/
theorem get_first_archive_member_spec {α : Type} :
    (∀ (x : α) (rest : List α),
        get_first_archive_member (PyArchive.tarFile (x :: rest)) =
          PyResult.ok (some x) ∧
        get_first_archive_member (PyArchive.zipFile (x :: rest)) =
          PyResult.ok (some x)) ∧
    (∀ names : List α,
        (get_first_archive_member (PyArchive.tarFile names) =
            PyResult.indexError ↔ names = []) ∧
        (get_first_archive_member (PyArchive.zipFile names) =
            PyResult.indexError ↔ names = [])) ∧
    get_first_archive_member (PyArchive.otherValue : PyArchive α) =
      PyResult.ok none := by
  refine ⟨?_, ?_, rfl⟩
  · intro x rest
    constructor <;> simp [get_first_archive_member, pyIndex]
  · intro names
    cases names with
    | nil =>
      constructor <;> simp [get_first_archive_member, pyIndex]
    | cons x rest =>
      constructor <;> simp [get_first_archive_member, pyIndex]

/-- Witness for C10: on a concrete two-member tar archive the first name
is returned, and on an empty archive the access raises. -/
theorem get_first_archive_member_spec_witness :
    get_first_archive_member (PyArchive.tarFile [0, 1]) = PyResult.ok (some 0) ∧
    (get_first_archive_member (PyArchive.tarFile ([] : List Nat)) =
      PyResult.indexError ↔ ([] : List Nat) = []) :=
  ⟨(get_first_archive_member_spec.1 0 [1]).1,
    (get_first_archive_member_spec.2.1 []).1⟩

end Gallery
